import Mathlib

/-!
# LocalBolt `hello.cpp`: the recursive binary exponentiation `binexp`

Shallow embedding of `src/hello.cpp`.  The C++ type `int` is a 32-bit signed
integer.  Three readings of the same function body are given:

* `binexp`        : the body read over unbounded integers;
* `binexp32`      : every multiplication wraps around modulo `2^32`;
* `binexpChecked` : every multiplication is checked against the 32-bit signed
                    range, `none` reporting that some product left the range.

In all three, `b % 2` is the C++ remainder (`Int.tmod`, sign of the dividend)
and `b / 2` the C++ quotient (`Int.tdiv`, truncation toward zero).
`binexpFuel` is the same body with an explicit bound on the recursion depth,
`binexpCounted` the same body counting recursive calls and multiplications,
`binexpCalls` the list of argument pairs of the recursive calls, and
`binexpSquares` the list of squares `a * a` computed along the recursion.
`powerLoop` / `powerIterative` is the iterative loop the specification
describes, compared with `binexp`; `powerLoop32` / `powerIterative32` is the
same loop with wrapping products, compared with `binexp32`.  `add` and `main`
are the remaining two functions of the file; `a % b` on `int` has no value when
`b` is zero or the quotient is not representable, so `add` returns an `Option`.
-/

namespace LocalBolt

/-! ## Machine integers -/

/-- Smallest value of the C++ type `int` (32-bit two's complement). -/
def INT_MIN : Int := -2147483648

/-- Largest value of the C++ type `int` (32-bit two's complement). -/
def INT_MAX : Int := 2147483647

/-- Representable as a 32-bit signed integer. -/
def inRange (x : Int) : Prop := INT_MIN ≤ x ∧ x ≤ INT_MAX

instance (x : Int) : Decidable (inRange x) :=
  inferInstanceAs (Decidable (INT_MIN ≤ x ∧ x ≤ INT_MAX))

/-- Two's-complement reduction of an integer into the 32-bit signed range. -/
def wrap32 (x : Int) : Int := (x + 2147483648) % 4294967296 - 2147483648

/-- A 32-bit signed multiplication that reports a product outside the range. -/
def mulChecked (x y : Int) : Option Int :=
  if inRange (x * y) then some (x * y) else none

/-! ## `binexp` -/

/-- Source `binexp` (`hello.cpp`, lines 9-17), read over unbounded integers. -/
def binexp (a b : Int) : Int :=
  if _h : b = 0 then
    1
  else if b.tmod 2 = 0 then
    binexp (a * a) (b.tdiv 2)
  else
    a * binexp (a * a) (b.tdiv 2)
termination_by b.natAbs
decreasing_by
  all_goals
    rw [Int.natAbs_tdiv]
    exact Nat.div_lt_self (Int.natAbs_pos.mpr (by assumption)) (by decide)

/-- Source `binexp` with every `int` multiplication wrapping modulo `2^32`. -/
def binexp32 (a b : Int) : Int :=
  if _h : b = 0 then
    1
  else if b.tmod 2 = 0 then
    binexp32 (wrap32 (a * a)) (b.tdiv 2)
  else
    wrap32 (a * binexp32 (wrap32 (a * a)) (b.tdiv 2))
termination_by b.natAbs
decreasing_by
  all_goals
    rw [Int.natAbs_tdiv]
    exact Nat.div_lt_self (Int.natAbs_pos.mpr (by assumption)) (by decide)

/-- Source `binexp` with every `int` multiplication checked: the argument
`a * a` is computed before the recursive call, the outer product after it. -/
def binexpChecked (a b : Int) : Option Int :=
  if _h : b = 0 then
    some 1
  else if b.tmod 2 = 0 then
    match mulChecked a a with
    | none => none
    | some s => binexpChecked s (b.tdiv 2)
  else
    match mulChecked a a with
    | none => none
    | some s =>
      match binexpChecked s (b.tdiv 2) with
      | none => none
      | some r => mulChecked a r
termination_by b.natAbs
decreasing_by
  all_goals
    rw [Int.natAbs_tdiv]
    exact Nat.div_lt_self (Int.natAbs_pos.mpr (by assumption)) (by decide)

/-- Source `binexp` with a bound on the depth of the recursion: `none` means
that the exponent has not reached `0` within `fuel` nested calls. -/
def binexpFuel : Nat → Int → Int → Option Int
  | 0, _, _ => none
  | fuel + 1, a, b =>
    if b = 0 then
      some 1
    else if b.tmod 2 = 0 then
      binexpFuel fuel (a * a) (b.tdiv 2)
    else
      (binexpFuel fuel (a * a) (b.tdiv 2)).map (fun r => a * r)

/-- Error kinds the specification names for the power operation. -/
inductive PowerError where
  | InvalidArgument
  | Overflow
  deriving DecidableEq

/-- The power operation as the program provides it: `binexp` is declared
`int binexp(int, int)`, its body has no `throw` and no error return, so a call
that returns always yields an integer. -/
def power (base exponent : Int) : Except PowerError Int :=
  Except.ok (binexp base exponent)

/-- Source `binexp` instrumented with two counters: the value returned, the
number of recursive calls made during the evaluation, and the number of
multiplications performed (`a * a` in both branches, the outer product in the
odd branch only). -/
def binexpCounted (a b : Int) : Int × Nat × Nat :=
  if _h : b = 0 then
    (1, 0, 0)
  else if b.tmod 2 = 0 then
    let rec_ := binexpCounted (a * a) (b.tdiv 2)
    (rec_.1, rec_.2.1 + 1, rec_.2.2 + 1)
  else
    let rec_ := binexpCounted (a * a) (b.tdiv 2)
    (a * rec_.1, rec_.2.1 + 1, rec_.2.2 + 2)
termination_by b.natAbs
decreasing_by
  all_goals
    rw [Int.natAbs_tdiv]
    exact Nat.div_lt_self (Int.natAbs_pos.mpr (by assumption)) (by decide)

/-- The arguments `a * a` that the evaluation of `binexp a b` computes for its
recursive calls, in order, read over unbounded integers. -/
def binexpSquares (a b : Int) : List Int :=
  if _h : b = 0 then
    []
  else
    (a * a) :: binexpSquares (a * a) (b.tdiv 2)
termination_by b.natAbs
decreasing_by
  all_goals
    rw [Int.natAbs_tdiv]
    exact Nat.div_lt_self (Int.natAbs_pos.mpr (by assumption)) (by decide)

/-- The iterative square-and-multiply loop as the specification words it:
while the exponent is non-zero, multiply the running result by the current base
when the exponent is odd, then square the base and halve the exponent. -/
def powerLoop (result base exponent : Int) : Int :=
  if _h : exponent = 0 then
    result
  else
    powerLoop (if exponent.tmod 2 ≠ 0 then result * base else result)
      (base * base) (exponent.tdiv 2)
termination_by exponent.natAbs
decreasing_by
  all_goals
    rw [Int.natAbs_tdiv]
    exact Nat.div_lt_self (Int.natAbs_pos.mpr (by assumption)) (by decide)

/-- The iterative power operation of the specification: the loop started with
`result = 1`. -/
def powerIterative (base exponent : Int) : Int :=
  powerLoop 1 base exponent

/-- The argument pairs `(a * a, b / 2)` of the recursive calls that the
evaluation of `binexp a b` makes, in the order in which they are made. -/
def binexpCalls (a b : Int) : List (Int × Int) :=
  if _h : b = 0 then
    []
  else
    (a * a, b.tdiv 2) :: binexpCalls (a * a) (b.tdiv 2)
termination_by b.natAbs
decreasing_by
  all_goals
    rw [Int.natAbs_tdiv]
    exact Nat.div_lt_self (Int.natAbs_pos.mpr (by assumption)) (by decide)

/-- The iterative loop of the specification on 32-bit integers: every
multiplication wraps modulo `2^32`, as in `binexp32`. -/
def powerLoop32 (result base exponent : Int) : Int :=
  if _h : exponent = 0 then
    result
  else
    powerLoop32 (if exponent.tmod 2 ≠ 0 then wrap32 (result * base) else result)
      (wrap32 (base * base)) (exponent.tdiv 2)
termination_by exponent.natAbs
decreasing_by
  all_goals
    rw [Int.natAbs_tdiv]
    exact Nat.div_lt_self (Int.natAbs_pos.mpr (by assumption)) (by decide)

/-- The iterative power operation on 32-bit integers: the wrapping loop started
with `result = 1`. -/
def powerIterative32 (base exponent : Int) : Int :=
  powerLoop32 1 base exponent

/-- Source `add` (`hello.cpp`, lines 5-7): the C++ remainder `a % b` on `int`.
The expression has no value (`none`) when `b` is zero or when the quotient
`a / b` is not representable as an `int`, which for 32-bit operands happens at
`INT_MIN / -1` only; otherwise it is the remainder of the truncating division. -/
def add (a b : Int) : Option Int :=
  if b = 0 ∨ ¬ inRange (a.tdiv b) then none else some (a.tmod b)

/-- Source `main` (`hello.cpp`, lines 19-22): the text written to the console
and the value returned. -/
def main : String × Option Int := ("Hello", add 10 20)

/-! ## Unfolding and arithmetic helpers -/

/-- The exponent of the recursive call is strictly closer to zero. -/
theorem natAbs_tdiv_two_lt {b : Int} (h : b ≠ 0) : (b.tdiv 2).natAbs < b.natAbs := by
  rw [Int.natAbs_tdiv]
  exact Nat.div_lt_self (Int.natAbs_pos.mpr h) (by decide)

theorem natAbs_tdiv_two (b : Int) : (b.tdiv 2).natAbs = b.natAbs / 2 := by
  rw [Int.natAbs_tdiv]
  rfl

theorem tmod_two_eq_zero_iff (b : Int) : b.tmod 2 = 0 ↔ b.natAbs % 2 = 0 := by
  rw [← Int.dvd_iff_tmod_eq_zero, ← Int.natAbs_dvd_natAbs]
  exact Nat.dvd_iff_mod_eq_zero

theorem binexp_zero (a : Int) : binexp a 0 = 1 := by
  rw [binexp]
  simp

theorem binexp_even (a : Int) {b : Int} (h0 : b ≠ 0) (h2 : b.tmod 2 = 0) :
    binexp a b = binexp (a * a) (b.tdiv 2) := by
  rw [binexp]
  simp [h0, h2]

theorem binexp_odd (a : Int) {b : Int} (h0 : b ≠ 0) (h2 : b.tmod 2 ≠ 0) :
    binexp a b = a * binexp (a * a) (b.tdiv 2) := by
  rw [binexp]
  simp [h0, h2]

theorem binexp_eq_pow_aux (n : Nat) :
    ∀ a b : Int, b.natAbs = n → binexp a b = a ^ b.natAbs := by
  induction n using Nat.strong_induction_on with
  | _ n ih =>
    intro a b hn
    by_cases h0 : b = 0
    · subst h0
      simp [binexp_zero]
    · have hlt : (b.tdiv 2).natAbs < n := hn ▸ natAbs_tdiv_two_lt h0
      have hrec := ih _ hlt (a * a) (b.tdiv 2) rfl
      have hhalf := natAbs_tdiv_two b
      by_cases h2 : b.tmod 2 = 0
      · rw [binexp_even a h0 h2, hrec, ← pow_two, ← pow_mul]
        congr 1
        have := (tmod_two_eq_zero_iff b).mp h2
        omega
      · rw [binexp_odd a h0 h2, hrec, ← pow_two, ← pow_mul, ← pow_succ']
        congr 1
        have : ¬ b.natAbs % 2 = 0 := fun h => h2 ((tmod_two_eq_zero_iff b).mpr h)
        omega

/-- Over unbounded integers `binexp a b` is `a` to the power `|b|`, for every
sign of the exponent. -/
theorem binexp_eq_pow_natAbs (a b : Int) : binexp a b = a ^ b.natAbs :=
  binexp_eq_pow_aux b.natAbs a b rfl

/-! ## The wrapping and the checked readings -/

theorem wrap32_of_inRange {x : Int} (h : inRange x) : wrap32 x = x := by
  unfold inRange INT_MIN INT_MAX at h
  unfold wrap32
  omega

theorem mulChecked_eq_some {x y r : Int} :
    mulChecked x y = some r ↔ inRange (x * y) ∧ r = x * y := by
  unfold mulChecked
  by_cases h : inRange (x * y)
  · simp [h, eq_comm]
  · simp [h]

theorem binexp32_zero (a : Int) : binexp32 a 0 = 1 := by
  rw [binexp32]
  simp

theorem binexp32_even (a : Int) {b : Int} (h0 : b ≠ 0) (h2 : b.tmod 2 = 0) :
    binexp32 a b = binexp32 (wrap32 (a * a)) (b.tdiv 2) := by
  rw [binexp32]
  simp [h0, h2]

theorem binexp32_odd (a : Int) {b : Int} (h0 : b ≠ 0) (h2 : b.tmod 2 ≠ 0) :
    binexp32 a b = wrap32 (a * binexp32 (wrap32 (a * a)) (b.tdiv 2)) := by
  rw [binexp32]
  simp [h0, h2]

theorem binexpChecked_zero (a : Int) : binexpChecked a 0 = some 1 := by
  rw [binexpChecked]
  simp

theorem binexpChecked_even (a : Int) {b : Int} (h0 : b ≠ 0) (h2 : b.tmod 2 = 0) :
    binexpChecked a b = (mulChecked a a).bind (fun s => binexpChecked s (b.tdiv 2)) := by
  rw [binexpChecked]
  simp only [h0, h2, dite_false, if_true]
  cases mulChecked a a <;> rfl

theorem binexpChecked_odd (a : Int) {b : Int} (h0 : b ≠ 0) (h2 : b.tmod 2 ≠ 0) :
    binexpChecked a b =
      (mulChecked a a).bind (fun s =>
        (binexpChecked s (b.tdiv 2)).bind (fun r => mulChecked a r)) := by
  rw [binexpChecked]
  simp only [h0, h2, dite_false, if_false]
  cases mulChecked a a with
  | none => rfl
  | some s =>
    simp only [Option.bind]
    cases binexpChecked s (b.tdiv 2) <;> rfl

theorem binexpChecked_sound_aux (n : Nat) :
    ∀ a b r : Int, b.natAbs = n → binexpChecked a b = some r →
      r = binexp a b ∧ r = binexp32 a b := by
  induction n using Nat.strong_induction_on with
  | _ n ih =>
    intro a b r hn h
    by_cases h0 : b = 0
    · subst h0
      rw [binexpChecked_zero] at h
      rw [binexp_zero, binexp32_zero]
      exact ⟨(Option.some.inj h).symm, (Option.some.inj h).symm⟩
    · have hlt : (b.tdiv 2).natAbs < n := hn ▸ natAbs_tdiv_two_lt h0
      by_cases h2 : b.tmod 2 = 0
      · rw [binexpChecked_even a h0 h2, Option.bind_eq_some] at h
        obtain ⟨s, hs, hr⟩ := h
        obtain ⟨hsr, rfl⟩ := mulChecked_eq_some.mp hs
        obtain ⟨e1, e2⟩ := ih _ hlt (a * a) (b.tdiv 2) r rfl hr
        rw [binexp_even a h0 h2, binexp32_even a h0 h2, wrap32_of_inRange hsr]
        exact ⟨e1, e2⟩
      · rw [binexpChecked_odd a h0 h2, Option.bind_eq_some] at h
        obtain ⟨s, hs, hr⟩ := h
        rw [Option.bind_eq_some] at hr
        obtain ⟨t, ht, hr⟩ := hr
        obtain ⟨hsr, rfl⟩ := mulChecked_eq_some.mp hs
        obtain ⟨htr, rfl⟩ := mulChecked_eq_some.mp hr
        obtain ⟨e1, e2⟩ := ih _ hlt (a * a) (b.tdiv 2) t rfl ht
        rw [binexp_odd a h0 h2, binexp32_odd a h0 h2, wrap32_of_inRange hsr, ← e1, ← e2,
          wrap32_of_inRange htr]
        exact ⟨rfl, rfl⟩

/-- When no multiplication leaves the 32-bit signed range, the checked, the
wrapping and the unbounded reading return the same integer. -/
theorem binexpChecked_sound {a b r : Int} (h : binexpChecked a b = some r) :
    r = binexp a b ∧ r = binexp32 a b :=
  binexpChecked_sound_aux b.natAbs a b r rfl h

/-- With more nested calls allowed than `|b|`, the recursion reaches exponent `0`. -/
theorem binexpFuel_of_lt (n : Nat) :
    ∀ a b : Int, b.natAbs < n → binexpFuel n a b = some (binexp a b) := by
  induction n with
  | zero => intro a b h; omega
  | succ n ih =>
    intro a b h
    by_cases h0 : b = 0
    · subst h0
      simp [binexpFuel, binexp_zero]
    · have hlt : (b.tdiv 2).natAbs < n := by
        have := natAbs_tdiv_two_lt h0
        omega
      by_cases h2 : b.tmod 2 = 0
      · simp [binexpFuel, h0, h2, ih _ _ hlt, binexp_even a h0 h2]
      · simp [binexpFuel, h0, h2, ih _ _ hlt, binexp_odd a h0 h2]

/-! ## Bases `1`, `0` and `-1` in the checked reading -/

theorem checked_base_one_aux (n : Nat) :
    ∀ b : Int, b.natAbs = n → binexpChecked 1 b = some 1 := by
  induction n using Nat.strong_induction_on with
  | _ n ih =>
    intro b hn
    by_cases h0 : b = 0
    · subst h0
      exact binexpChecked_zero 1
    · have hlt : (b.tdiv 2).natAbs < n := hn ▸ natAbs_tdiv_two_lt h0
      have hrec := ih _ hlt (b.tdiv 2) rfl
      have hm : mulChecked 1 1 = some 1 := by decide
      by_cases h2 : b.tmod 2 = 0
      · rw [binexpChecked_even 1 h0 h2, hm]
        exact hrec
      · rw [binexpChecked_odd 1 h0 h2, hm]
        simp only [Option.bind, hrec]
        exact hm

/-- Base `1` never overflows: every product is `1 * 1`. -/
theorem checked_base_one (b : Int) : binexpChecked 1 b = some 1 :=
  checked_base_one_aux b.natAbs b rfl

theorem checked_base_zero_aux (n : Nat) :
    ∀ b : Int, b.natAbs = n → b ≠ 0 → binexpChecked 0 b = some 0 := by
  induction n using Nat.strong_induction_on with
  | _ n ih =>
    intro b hn h0
    have hlt : (b.tdiv 2).natAbs < n := hn ▸ natAbs_tdiv_two_lt h0
    have hm : mulChecked 0 0 = some 0 := by decide
    have hhalf := natAbs_tdiv_two b
    by_cases h2 : b.tmod 2 = 0
    · rw [binexpChecked_even 0 h0 h2, hm]
      have hpar := (tmod_two_eq_zero_iff b).mp h2
      have hne : b.tdiv 2 ≠ 0 := by
        intro hz
        rw [hz] at hhalf
        have : b.natAbs ≠ 0 := Int.natAbs_ne_zero.mpr h0
        simp at hhalf
        omega
      exact ih _ hlt (b.tdiv 2) rfl hne
    · rw [binexpChecked_odd 0 h0 h2, hm]
      simp only [Option.bind]
      by_cases hz : b.tdiv 2 = 0
      · rw [hz, binexpChecked_zero]
        decide
      · rw [ih _ hlt (b.tdiv 2) rfl hz]
        exact hm

/-- Base `0` with a non-zero exponent never overflows and yields `0`. -/
theorem checked_base_zero {b : Int} (h0 : b ≠ 0) : binexpChecked 0 b = some 0 :=
  checked_base_zero_aux b.natAbs b rfl h0

theorem even_iff_tmod_two (b : Int) : Even b ↔ b.tmod 2 = 0 := by
  rw [tmod_two_eq_zero_iff, ← Int.natAbs_even, Nat.even_iff]

/-- Base `-1` never overflows: the first square is `1`. -/
theorem checked_base_neg_one (b : Int) :
    binexpChecked (-1) b = some (if Even b then 1 else -1) := by
  have hm : mulChecked (-1) (-1) = some 1 := by decide
  by_cases h0 : b = 0
  · subst h0
    simp [binexpChecked_zero]
  · by_cases h2 : b.tmod 2 = 0
    · rw [binexpChecked_even (-1) h0 h2, hm, if_pos ((even_iff_tmod_two b).mpr h2)]
      exact checked_base_one _
    · rw [binexpChecked_odd (-1) h0 h2, hm,
        if_neg (fun h => h2 ((even_iff_tmod_two b).mp h))]
      simp only [Option.bind, checked_base_one]
      decide

/-! ## The iterative loop -/

theorem powerLoop_zero (r a : Int) : powerLoop r a 0 = r := by
  rw [powerLoop]
  simp

theorem powerLoop_step (r a : Int) {b : Int} (h0 : b ≠ 0) :
    powerLoop r a b =
      powerLoop (if b.tmod 2 ≠ 0 then r * a else r) (a * a) (b.tdiv 2) := by
  rw [powerLoop]
  simp [h0]

theorem powerLoop_eq_aux (n : Nat) :
    ∀ r a b : Int, b.natAbs = n → powerLoop r a b = r * binexp a b := by
  induction n using Nat.strong_induction_on with
  | _ n ih =>
    intro r a b hn
    by_cases h0 : b = 0
    · subst h0
      rw [powerLoop_zero, binexp_zero, mul_one]
    · have hlt : (b.tdiv 2).natAbs < n := hn ▸ natAbs_tdiv_two_lt h0
      rw [powerLoop_step r a h0, ih _ hlt _ (a * a) (b.tdiv 2) rfl]
      by_cases h2 : b.tmod 2 = 0
      · rw [binexp_even a h0 h2]
        simp [h2]
      · rw [binexp_odd a h0 h2]
        simp [h2, mul_assoc]

/-- The loop invariant: the running result times what `binexp` still owes. -/
theorem powerLoop_eq (r a b : Int) : powerLoop r a b = r * binexp a b :=
  powerLoop_eq_aux b.natAbs r a b rfl

/-! ## The C++ remainder -/

theorem natAbs_tmod_eq (a b : Int) : (a.tmod b).natAbs = a.natAbs % b.natAbs := by
  cases a <;> cases b <;> simp [Int.tmod, Int.natAbs_neg] <;> rfl

theorem tmod_nonpos_of_nonpos (a b : Int) (h : a ≤ 0) : a.tmod b ≤ 0 := by
  cases a with
  | ofNat m =>
    have hm : m = 0 := by
      have : (m : Int) ≤ 0 := h
      omega
    subst hm
    simp
  | negSucc m =>
    cases b <;> simp only [Int.tmod] <;>
      exact Int.neg_nonpos_of_nonneg (Int.ofNat_nonneg _)

/-- The C++ remainder never has the sign opposite to the dividend. -/
theorem mul_tmod_nonneg (a b : Int) : 0 ≤ a * a.tmod b := by
  rcases le_total 0 a with h | h
  · exact mul_nonneg h (Int.tmod_nonneg b h)
  · exact mul_nonneg_of_nonpos_of_nonpos h (tmod_nonpos_of_nonpos a b h)

/-- The truncated quotient of two `int` values is an `int`, except for
`INT_MIN / -1`. -/
theorem inRange_tdiv {a b : Int} (ha : inRange a) (hb : inRange b) (hb0 : b ≠ 0)
    (hne : ¬ (a = INT_MIN ∧ b = -1)) : inRange (a.tdiv b) := by
  have hle : (a.tdiv b).natAbs ≤ a.natAbs := by
    rw [Int.natAbs_tdiv]
    exact Nat.div_le_self _ _
  unfold inRange INT_MIN INT_MAX at ha hb ⊢
  unfold INT_MIN at hne
  by_cases h1 : b = -1
  · subst h1
    rw [Int.tdiv_neg, Int.tdiv_one]
    omega
  · by_cases h2 : b = 1
    · subst h2
      rw [Int.tdiv_one]
      exact ha
    · have hb2 : 2 ≤ b.natAbs := by omega
      have hhalf : (a.tdiv b).natAbs ≤ a.natAbs / 2 := by
        rw [Int.natAbs_tdiv]
        exact Nat.div_le_div_left hb2 (by decide)
      omega

/-! ## Counting recursive calls and multiplications -/

theorem binexpCounted_zero (a : Int) : binexpCounted a 0 = (1, 0, 0) := by
  rw [binexpCounted]
  simp

theorem binexpCounted_even (a : Int) {b : Int} (h0 : b ≠ 0) (h2 : b.tmod 2 = 0) :
    binexpCounted a b =
      ((binexpCounted (a * a) (b.tdiv 2)).1,
        (binexpCounted (a * a) (b.tdiv 2)).2.1 + 1,
        (binexpCounted (a * a) (b.tdiv 2)).2.2 + 1) := by
  rw [binexpCounted]
  simp [h0, h2]

theorem binexpCounted_odd (a : Int) {b : Int} (h0 : b ≠ 0) (h2 : b.tmod 2 ≠ 0) :
    binexpCounted a b =
      (a * (binexpCounted (a * a) (b.tdiv 2)).1,
        (binexpCounted (a * a) (b.tdiv 2)).2.1 + 1,
        (binexpCounted (a * a) (b.tdiv 2)).2.2 + 2) := by
  rw [binexpCounted]
  simp [h0, h2]

/-- The number of recursive calls in either branch. -/
theorem binexpCounted_calls_step (a : Int) {b : Int} (h0 : b ≠ 0) :
    (binexpCounted a b).2.1 = (binexpCounted (a * a) (b.tdiv 2)).2.1 + 1 := by
  by_cases h2 : b.tmod 2 = 0
  · rw [binexpCounted_even a h0 h2]
  · rw [binexpCounted_odd a h0 h2]

theorem binexpCounted_spec_aux (n : Nat) :
    ∀ a b : Int, b.natAbs = n →
      (binexpCounted a b).1 = binexp a b ∧
      (binexpCounted a b).2.1 = (if b = 0 then 0 else Nat.log 2 b.natAbs + 1) ∧
      (binexpCounted a b).2.2 ≤ 2 * (binexpCounted a b).2.1 := by
  induction n using Nat.strong_induction_on with
  | _ n ih =>
    intro a b hn
    by_cases h0 : b = 0
    · subst h0
      simp [binexpCounted_zero, binexp_zero]
    · have hlt : (b.tdiv 2).natAbs < n := hn ▸ natAbs_tdiv_two_lt h0
      obtain ⟨hv, hc, hm⟩ := ih _ hlt (a * a) (b.tdiv 2) rfl
      have hhalf := natAbs_tdiv_two b
      have hpos : 0 < b.natAbs := Int.natAbs_pos.mpr h0
      have hcalls : (binexpCounted (a * a) (b.tdiv 2)).2.1 + 1 = Nat.log 2 b.natAbs + 1 := by
        rw [hc]
        by_cases hz : b.tdiv 2 = 0
        · have h1 : b.natAbs < 2 := by
            rw [hz] at hhalf
            simp at hhalf
            omega
          rw [if_pos hz, Nat.log_of_lt h1]
        · have h2 : 2 ≤ b.natAbs := by
            have : 0 < (b.tdiv 2).natAbs := Int.natAbs_pos.mpr hz
            omega
          rw [if_neg hz, hhalf, Nat.log_of_one_lt_of_le (by decide) h2]
      by_cases h2 : b.tmod 2 = 0
      · rw [binexpCounted_even a h0 h2, binexp_even a h0 h2, if_neg h0]
        refine ⟨hv, hcalls, ?_⟩
        show (binexpCounted (a * a) (b.tdiv 2)).2.2 + 1 ≤
          2 * ((binexpCounted (a * a) (b.tdiv 2)).2.1 + 1)
        omega
      · rw [binexpCounted_odd a h0 h2, binexp_odd a h0 h2, if_neg h0]
        refine ⟨by rw [← hv], hcalls, ?_⟩
        show (binexpCounted (a * a) (b.tdiv 2)).2.2 + 2 ≤
          2 * ((binexpCounted (a * a) (b.tdiv 2)).2.1 + 1)
        omega

/-- The instrumented evaluation returns the value of `binexp`, makes
`floor (log2 |b|) + 1` recursive calls for `b ≠ 0` and none for `b = 0`, and at
most two multiplications per call. -/
theorem binexpCounted_spec (a b : Int) :
    (binexpCounted a b).1 = binexp a b ∧
      (binexpCounted a b).2.1 = (if b = 0 then 0 else Nat.log 2 b.natAbs + 1) ∧
      (binexpCounted a b).2.2 ≤ 2 * (binexpCounted a b).2.1 :=
  binexpCounted_spec_aux b.natAbs a b rfl

/-- With no more nested calls allowed than the evaluation makes, the
depth-bounded evaluation does not reach exponent `0`. -/
theorem binexpFuel_none_of_le (n : Nat) :
    ∀ a b : Int, n ≤ (binexpCounted a b).2.1 → binexpFuel n a b = none := by
  induction n with
  | zero => intro a b _; rfl
  | succ n ih =>
    intro a b h
    have h0 : b ≠ 0 := by
      intro hz
      rw [hz, binexpCounted_zero] at h
      simp at h
    rw [binexpCounted_calls_step a h0] at h
    have hrec := ih (a * a) (b.tdiv 2) (by omega)
    by_cases h2 : b.tmod 2 = 0
    · simp [binexpFuel, h0, h2, hrec]
    · simp [binexpFuel, h0, h2, hrec]

/-- With more nested calls allowed than the evaluation makes, the depth-bounded
evaluation returns the value of `binexp`. -/
theorem binexpFuel_of_calls_lt (n : Nat) :
    ∀ a b : Int, (binexpCounted a b).2.1 < n → binexpFuel n a b = some (binexp a b) := by
  induction n with
  | zero => intro a b h; omega
  | succ n ih =>
    intro a b h
    by_cases h0 : b = 0
    · subst h0
      simp [binexpFuel, binexp_zero]
    · rw [binexpCounted_calls_step a h0] at h
      have hrec := ih (a * a) (b.tdiv 2) (by omega)
      by_cases h2 : b.tmod 2 = 0
      · simp [binexpFuel, h0, h2, hrec, binexp_even a h0 h2]
      · simp [binexpFuel, h0, h2, hrec, binexp_odd a h0 h2]

/-! ## Wraparound is exponentiation modulo `2^32` -/

theorem wrap32_modEq (x : Int) : Int.ModEq 4294967296 (wrap32 x) x := by
  unfold Int.ModEq wrap32
  omega

theorem wrap32_eq_of_modEq {x y : Int} (h : Int.ModEq 4294967296 x y) :
    wrap32 x = wrap32 y := by
  unfold Int.ModEq at h
  unfold wrap32
  omega

theorem inRange_wrap32 (x : Int) : inRange (wrap32 x) := by
  unfold inRange INT_MIN INT_MAX wrap32
  omega

theorem binexp32_eq_wrap_pow_aux (n : Nat) :
    ∀ a b : Int, b.natAbs = n → binexp32 a b = wrap32 (a ^ b.natAbs) := by
  induction n using Nat.strong_induction_on with
  | _ n ih =>
    intro a b hn
    by_cases h0 : b = 0
    · subst h0
      rw [binexp32_zero, Int.natAbs_zero, pow_zero]
      decide
    · have hlt : (b.tdiv 2).natAbs < n := hn ▸ natAbs_tdiv_two_lt h0
      have hrec := ih _ hlt (wrap32 (a * a)) (b.tdiv 2) rfl
      have hhalf := natAbs_tdiv_two b
      have hsq : Int.ModEq 4294967296 (wrap32 (a * a) ^ (b.tdiv 2).natAbs)
          (a ^ (2 * (b.tdiv 2).natAbs)) := by
        rw [pow_mul, pow_two]
        exact (wrap32_modEq (a * a)).pow _
      by_cases h2 : b.tmod 2 = 0
      · have hexp : b.natAbs = 2 * (b.tdiv 2).natAbs := by
          have := (tmod_two_eq_zero_iff b).mp h2
          omega
        rw [binexp32_even a h0 h2, hrec, hexp]
        exact wrap32_eq_of_modEq hsq
      · have hexp : b.natAbs = 2 * (b.tdiv 2).natAbs + 1 := by
          have : ¬ b.natAbs % 2 = 0 := fun h => h2 ((tmod_two_eq_zero_iff b).mpr h)
          omega
        rw [binexp32_odd a h0 h2, hrec, hexp, pow_succ']
        exact wrap32_eq_of_modEq (((wrap32_modEq _).trans hsq).mul_left a)

/-- With wrapping multiplications `binexp32 a b` is `a ^ |b|` reduced into the
32-bit signed range. -/
theorem binexp32_eq_wrap_pow (a b : Int) : binexp32 a b = wrap32 (a ^ b.natAbs) :=
  binexp32_eq_wrap_pow_aux b.natAbs a b rfl

/-! ## The squares computed along the recursion -/

theorem binexpSquares_zero (a : Int) : binexpSquares a 0 = [] := by
  rw [binexpSquares]
  simp

theorem binexpSquares_step (a : Int) {b : Int} (h0 : b ≠ 0) :
    binexpSquares a b = (a * a) :: binexpSquares (a * a) (b.tdiv 2) := by
  rw [binexpSquares]
  simp [h0]

theorem binexpSquares_last_aux (n : Nat) :
    ∀ a b : Int, b.natAbs = n → b ≠ 0 →
      a ^ (2 ^ (Nat.log 2 b.natAbs + 1)) ∈ binexpSquares a b := by
  induction n using Nat.strong_induction_on with
  | _ n ih =>
    intro a b hn h0
    have hlt : (b.tdiv 2).natAbs < n := hn ▸ natAbs_tdiv_two_lt h0
    have hhalf := natAbs_tdiv_two b
    rw [binexpSquares_step a h0]
    by_cases hz : b.tdiv 2 = 0
    · have h1 : b.natAbs < 2 := by
        rw [hz] at hhalf
        simp at hhalf
        omega
      rw [Nat.log_of_lt h1, hz, binexpSquares_zero]
      simp [pow_two]
    · have h2 : 2 ≤ b.natAbs := by
        have : 0 < (b.tdiv 2).natAbs := Int.natAbs_pos.mpr hz
        omega
      have hrec := ih _ hlt (a * a) (b.tdiv 2) rfl hz
      rw [Nat.log_of_one_lt_of_le (by decide) h2, ← hhalf]
      have hpow : (a * a) ^ (2 ^ (Nat.log 2 (b.tdiv 2).natAbs + 1)) =
          a ^ (2 ^ (Nat.log 2 (b.tdiv 2).natAbs + 1 + 1)) := by
        rw [← pow_two, ← pow_mul, ← pow_succ']
      rw [hpow] at hrec
      exact List.mem_cons_of_mem _ hrec

/-- The last square computed is `a ^ (2 ^ (floor (log2 |b|) + 1))`: one
squaring beyond the largest power of `a` that enters the result. -/
theorem binexpSquares_last (a : Int) {b : Int} (h0 : b ≠ 0) :
    a ^ (2 ^ (Nat.log 2 b.natAbs + 1)) ∈ binexpSquares a b :=
  binexpSquares_last_aux b.natAbs a b rfl h0

theorem binexpChecked_squares_aux (n : Nat) :
    ∀ a b r : Int, b.natAbs = n → binexpChecked a b = some r →
      ∀ s ∈ binexpSquares a b, inRange s := by
  induction n using Nat.strong_induction_on with
  | _ n ih =>
    intro a b r hn h s hs
    by_cases h0 : b = 0
    · subst h0
      rw [binexpSquares_zero] at hs
      cases hs
    · have hlt : (b.tdiv 2).natAbs < n := hn ▸ natAbs_tdiv_two_lt h0
      rw [binexpSquares_step a h0, List.mem_cons] at hs
      by_cases h2 : b.tmod 2 = 0
      · rw [binexpChecked_even a h0 h2, Option.bind_eq_some] at h
        obtain ⟨q, hq, hr⟩ := h
        obtain ⟨hqr, rfl⟩ := mulChecked_eq_some.mp hq
        rcases hs with rfl | hs
        · exact hqr
        · exact ih _ hlt (a * a) (b.tdiv 2) r rfl hr s hs
      · rw [binexpChecked_odd a h0 h2, Option.bind_eq_some] at h
        obtain ⟨q, hq, hr⟩ := h
        rw [Option.bind_eq_some] at hr
        obtain ⟨t, ht, _⟩ := hr
        obtain ⟨hqr, rfl⟩ := mulChecked_eq_some.mp hq
        rcases hs with rfl | hs
        · exact hqr
        · exact ih _ hlt (a * a) (b.tdiv 2) t rfl ht s hs

/-- When the checked evaluation returns, every square it computed is in range. -/
theorem binexpChecked_squares {a b r : Int} (h : binexpChecked a b = some r) :
    ∀ s ∈ binexpSquares a b, inRange s :=
  binexpChecked_squares_aux b.natAbs a b r rfl h

/-! ## The recursive calls -/

theorem binexpCalls_zero (a : Int) : binexpCalls a 0 = [] := by
  rw [binexpCalls]
  simp

theorem binexpCalls_step (a : Int) {b : Int} (h0 : b ≠ 0) :
    binexpCalls a b = (a * a, b.tdiv 2) :: binexpCalls (a * a) (b.tdiv 2) := by
  rw [binexpCalls]
  simp [h0]

theorem binexpCalls_chain_aux (n : Nat) :
    ∀ a b : Int, 0 ≤ b → b.natAbs = n →
      List.Chain (fun x y : Int => x ≠ 0 ∧ y = x.tdiv 2 ∧ 0 ≤ y ∧ y < x) b
          ((binexpCalls a b).map Prod.snd) ∧
        (b :: (binexpCalls a b).map Prod.snd).getLast? = some 0 := by
  induction n using Nat.strong_induction_on with
  | _ n ih =>
    intro a b hb hn
    by_cases h0 : b = 0
    · subst h0
      rw [binexpCalls_zero]
      exact ⟨List.Chain.nil, rfl⟩
    · have hlt : (b.tdiv 2).natAbs < n := hn ▸ natAbs_tdiv_two_lt h0
      have hq : b.tdiv 2 = b / 2 := Int.tdiv_eq_ediv hb (by decide)
      have hnn : 0 ≤ b.tdiv 2 := by omega
      have hsm : b.tdiv 2 < b := by omega
      obtain ⟨hc, hl⟩ := ih _ hlt (a * a) (b.tdiv 2) hnn rfl
      rw [binexpCalls_step a h0, List.map_cons]
      refine ⟨List.Chain.cons ⟨h0, rfl, hnn, hsm⟩ hc, ?_⟩
      rw [List.getLast?_cons_cons]
      exact hl

/-- What the depth-bounded evaluation returns is decided by the number of
recursive calls: `none` up to that many nested calls, the value beyond it. -/
theorem binexpFuel_eq_calls (n : Nat) :
    ∀ a b : Int, binexpFuel n a b =
      if n ≤ (binexpCalls a b).length then none else some (binexp a b) := by
  induction n with
  | zero => intro a b; simp [binexpFuel]
  | succ n ih =>
    intro a b
    by_cases h0 : b = 0
    · subst h0
      simp [binexpFuel, binexpCalls_zero, binexp_zero]
    · rw [binexpCalls_step a h0, List.length_cons]
      by_cases h2 : b.tmod 2 = 0
      · simp only [binexpFuel, h0, h2, if_false, if_true, ih, binexp_even a h0 h2,
          Nat.add_le_add_iff_right]
      · simp only [binexpFuel, h0, h2, if_false, ih, binexp_odd a h0 h2,
          Nat.add_le_add_iff_right]
        split <;> rfl

/-! ## The iterative loop on 32-bit integers -/

theorem powerLoop32_zero (r a : Int) : powerLoop32 r a 0 = r := by
  rw [powerLoop32]
  simp

theorem powerLoop32_step (r a : Int) {b : Int} (h0 : b ≠ 0) :
    powerLoop32 r a b =
      powerLoop32 (if b.tmod 2 ≠ 0 then wrap32 (r * a) else r) (wrap32 (a * a))
        (b.tdiv 2) := by
  rw [powerLoop32]
  simp [h0]

theorem powerLoop32_eq_aux (n : Nat) :
    ∀ r a b : Int, b.natAbs = n → inRange r →
      powerLoop32 r a b = wrap32 (r * a ^ b.natAbs) := by
  induction n using Nat.strong_induction_on with
  | _ n ih =>
    intro r a b hn hr
    by_cases h0 : b = 0
    · subst h0
      rw [powerLoop32_zero, Int.natAbs_zero, pow_zero, mul_one, wrap32_of_inRange hr]
    · have hlt : (b.tdiv 2).natAbs < n := hn ▸ natAbs_tdiv_two_lt h0
      have hhalf := natAbs_tdiv_two b
      have hsq : Int.ModEq 4294967296 (wrap32 (a * a) ^ (b.tdiv 2).natAbs)
          (a ^ (2 * (b.tdiv 2).natAbs)) := by
        rw [pow_mul, pow_two]
        exact (wrap32_modEq (a * a)).pow _
      rw [powerLoop32_step r a h0]
      by_cases h2 : b.tmod 2 = 0
      · have hexp : b.natAbs = 2 * (b.tdiv 2).natAbs := by
          have := (tmod_two_eq_zero_iff b).mp h2
          omega
        simp only [h2, ne_eq, not_true_eq_false, if_false]
        rw [ih _ hlt r (wrap32 (a * a)) (b.tdiv 2) rfl hr, hexp]
        exact wrap32_eq_of_modEq (hsq.mul_left r)
      · have hexp : b.natAbs = 2 * (b.tdiv 2).natAbs + 1 := by
          have : ¬ b.natAbs % 2 = 0 := fun h => h2 ((tmod_two_eq_zero_iff b).mpr h)
          omega
        simp only [h2, ne_eq, not_false_eq_true, if_true]
        rw [ih _ hlt (wrap32 (r * a)) (wrap32 (a * a)) (b.tdiv 2) rfl (inRange_wrap32 _),
          hexp, pow_succ', ← mul_assoc]
        exact wrap32_eq_of_modEq ((wrap32_modEq (r * a)).mul hsq)

/-- The wrapping loop returns the running result times `a ^ |b|`, reduced into
the 32-bit signed range. -/
theorem powerLoop32_eq (r a b : Int) (hr : inRange r) :
    powerLoop32 r a b = wrap32 (r * a ^ b.natAbs) :=
  powerLoop32_eq_aux b.natAbs r a b rfl hr

/-! ## Claims -/

/-- C1: for every base `a` and every exponent `b >= 0`, `binexp a b` read over
unbounded integers is exactly `a ^ b` (with `0 ^ 0 = 1`), and whenever the
evaluation on 32-bit integers performs no multiplication that leaves the signed
range, the integer it returns is `a ^ b`. -/
theorem binexp_correct_nonneg (a b : Int) (hb : 0 ≤ b) :
    binexp a b = a ^ b.toNat ∧
      (binexpChecked a b ≠ none → binexpChecked a b = some (a ^ b.toNat)) := by
  have hnat : b.natAbs = b.toNat := by omega
  have hpow : binexp a b = a ^ b.toNat := by rw [binexp_eq_pow_natAbs, hnat]
  refine ⟨hpow, fun hne => ?_⟩
  obtain ⟨r, hr⟩ := Option.ne_none_iff_exists'.mp hne
  rw [hr, ← hpow, (binexpChecked_sound hr).1]

theorem binexp_correct_nonneg_witness :
    (0 : Int) ≤ 10 ∧ binexpChecked 2 10 ≠ none ∧ binexp 2 10 = 2 ^ (10 : Int).toNat ∧
      binexpChecked 2 10 = some (2 ^ (10 : Int).toNat) :=
  have hc : binexpChecked 2 10 ≠ none := by
    simp (disch := decide) [binexpChecked_even, binexpChecked_odd, binexpChecked_zero,
      mulChecked, inRange, INT_MIN, INT_MAX, Int.tdiv_eq_ediv]
  ⟨by decide, hc, (binexp_correct_nonneg 2 10 (by decide)).1,
    (binexp_correct_nonneg 2 10 (by decide)).2 hc⟩

/-- C2 (as stated, refuted): the claim says `power(b, -1)` fails with
`InvalidArgument` for every `b`; the program has no such guard and returns the
integer `3` for `power(3, -1)`. -/
theorem power_neg_one_not_rejected :
    (-1 : Int) < 0 ∧ power 3 (-1) = Except.ok 3 ∧
      power 3 (-1) ≠ Except.error PowerError.InvalidArgument := by
  have h : power 3 (-1) = Except.ok 3 := by
    unfold power
    simp (disch := decide) [binexp_odd, binexp_zero, Int.tdiv_eq_ediv]
  refine ⟨by decide, h, ?_⟩
  rw [h]
  intro hc
  cases hc

/-- C2 (amended): for every base and every exponent `< 0` the power operation
raises no error; it returns the integer `base ^ |exponent|` (over unbounded
integers), and in particular `power(b, -1)` returns `b`. -/
theorem power_neg_exponent_returns (a b : Int) (_hb : b < 0) :
    power a b = Except.ok (a ^ b.natAbs) ∧
      power a b ≠ Except.error PowerError.InvalidArgument ∧
      power a (-1) = Except.ok a := by
  unfold power
  refine ⟨by rw [binexp_eq_pow_natAbs], ?_, ?_⟩
  · intro hc
    cases hc
  · rw [binexp_eq_pow_natAbs]
    simp

theorem power_neg_exponent_returns_witness :
    (-2 : Int) < 0 ∧ power 3 (-2) = Except.ok (3 ^ (-2 : Int).natAbs) ∧
      power 3 (-2) ≠ Except.error PowerError.InvalidArgument ∧
      power 3 (-1) = Except.ok 3 :=
  ⟨by decide, power_neg_exponent_returns 3 (-2) (by decide)⟩

/-- C3: for every integer `b` and all non-negative `e1`, `e2`, over unbounded
integers, `binexp b (e1 + e2) = binexp b e1 * binexp b e2`. -/
theorem binexp_exponent_add (b e1 e2 : Int) (h1 : 0 ≤ e1) (h2 : 0 ≤ e2) :
    binexp b (e1 + e2) = binexp b e1 * binexp b e2 := by
  have hsum : (e1 + e2).natAbs = e1.natAbs + e2.natAbs := by omega
  rw [binexp_eq_pow_natAbs, binexp_eq_pow_natAbs, binexp_eq_pow_natAbs, hsum, pow_add]

theorem binexp_exponent_add_witness :
    (0 : Int) ≤ 3 ∧ (0 : Int) ≤ 4 ∧ binexp 2 (3 + 4) = binexp 2 3 * binexp 2 4 :=
  ⟨by decide, by decide, binexp_exponent_add 2 3 4 (by decide) (by decide)⟩

/-- C4: for every exponent `b >= 0` the recursion of `binexp a b` terminates:
along the recursive calls that the evaluation makes, every call is made from a
non-zero exponent `x` with the exponent `x / 2`, which is non-negative and
strictly smaller than `x`; the last exponent reached is `0`; and the evaluation
returns once it is allowed more nested calls than this finite list has, and
not before. -/
theorem binexp_recursion_terminates (a b : Int) (hb : 0 ≤ b) (fuel : Nat) :
    List.Chain (fun x y : Int => x ≠ 0 ∧ y = x.tdiv 2 ∧ 0 ≤ y ∧ y < x) b
        ((binexpCalls a b).map Prod.snd) ∧
      (b :: (binexpCalls a b).map Prod.snd).getLast? = some 0 ∧
      binexpFuel fuel a b =
        (if fuel ≤ (binexpCalls a b).length then none else some (binexp a b)) ∧
      binexpFuel ((binexpCalls a b).length + 1) a b = some (binexp a b) := by
  obtain ⟨hc, hl⟩ := binexpCalls_chain_aux b.natAbs a b hb rfl
  refine ⟨hc, hl, binexpFuel_eq_calls fuel a b, ?_⟩
  rw [binexpFuel_eq_calls]
  simp

theorem binexp_recursion_terminates_witness :
    (0 : Int) ≤ 10 ∧
      List.Chain (fun x y : Int => x ≠ 0 ∧ y = x.tdiv 2 ∧ 0 ≤ y ∧ y < x) 10
        ((binexpCalls 2 10).map Prod.snd) ∧
      ((10 : Int) :: (binexpCalls 2 10).map Prod.snd).getLast? = some 0 ∧
      binexpFuel 3 2 10 =
        (if 3 ≤ (binexpCalls 2 10).length then none else some (binexp 2 10)) ∧
      binexpFuel ((binexpCalls 2 10).length + 1) 2 10 = some (binexp 2 10) :=
  ⟨by decide, binexp_recursion_terminates 2 10 (by decide) 3⟩

/-- C5: for every integer `b`, including `b = 0`, `binexp b 0 = 1`; no
multiplication is performed, so the 32-bit readings return `1` as well. -/
theorem binexp_exponent_zero_eq_one (b : Int) :
    binexp b 0 = 1 ∧ binexp32 b 0 = 1 ∧ binexpChecked b 0 = some 1 :=
  ⟨binexp_zero b, binexp32_zero b, binexpChecked_zero b⟩

/-- C6: for every exponent `e > 0`, `binexp 0 e = 0`; every product of the
evaluation is `0`, so the 32-bit evaluation returns `0` without overflow. -/
theorem binexp_base_zero_eq_zero (e : Int) (he : 0 < e) :
    binexp 0 e = 0 ∧ binexpChecked 0 e = some 0 := by
  have h0 : e ≠ 0 := by omega
  have hc := checked_base_zero h0
  exact ⟨((binexpChecked_sound hc).1).symm, hc⟩

theorem binexp_base_zero_eq_zero_witness :
    (0 : Int) < 5 ∧ binexp 0 5 = 0 ∧ binexpChecked 0 5 = some 0 :=
  ⟨by decide, binexp_base_zero_eq_zero 5 (by decide)⟩

/-- C7: for every exponent `e >= 0`, `binexp 1 e = 1`; every product of the
evaluation is `1`, so the 32-bit evaluation returns `1` without overflow. -/
theorem binexp_base_one_eq_one (e : Int) (_he : 0 ≤ e) :
    binexp 1 e = 1 ∧ binexpChecked 1 e = some 1 :=
  ⟨((binexpChecked_sound (checked_base_one e)).1).symm, checked_base_one e⟩

theorem binexp_base_one_eq_one_witness :
    (0 : Int) ≤ 6 ∧ binexp 1 6 = 1 ∧ binexpChecked 1 6 = some 1 :=
  ⟨by decide, binexp_base_one_eq_one 6 (by decide)⟩

/-- C8: for every exponent `e >= 0`, `binexp (-1) e` is `1` if `e` is even and
`-1` if `e` is odd; the 32-bit evaluation returns the same without overflow. -/
theorem binexp_base_neg_one_parity (e : Int) (_he : 0 ≤ e) :
    binexp (-1) e = (if Even e then 1 else -1) ∧
      binexpChecked (-1) e = some (if Even e then 1 else -1) :=
  ⟨((binexpChecked_sound (checked_base_neg_one e)).1).symm, checked_base_neg_one e⟩

theorem binexp_base_neg_one_parity_witness :
    (0 : Int) ≤ 7 ∧ binexp (-1) 7 = (if Even (7 : Int) then 1 else -1) ∧
      binexpChecked (-1) 7 = some (if Even (7 : Int) then 1 else -1) :=
  ⟨by decide, binexp_base_neg_one_parity 7 (by decide)⟩

/-- C9: for every integer `b`, `binexp b 1 = b`; this also holds for every
32-bit `b` when multiplications wrap, including the bases whose square `b * b`
does not fit in a 32-bit signed integer, because the wrapped square is only
passed to the call with exponent `0`. -/
theorem binexp_exponent_one_eq_base (b : Int) :
    binexp b 1 = b ∧ (inRange b → binexp32 b 1 = b) := by
  have hd : Int.tdiv 1 2 = 0 := by decide
  constructor
  · rw [binexp_odd b (by decide) (by decide), hd, binexp_zero, mul_one]
  · intro hb
    rw [binexp32_odd b (by decide) (by decide), hd, binexp32_zero, mul_one,
      wrap32_of_inRange hb]

theorem binexp_exponent_one_eq_base_witness :
    inRange 65536 ∧ ¬ inRange (65536 * 65536) ∧ binexp 65536 1 = 65536 ∧
      binexp32 65536 1 = 65536 :=
  ⟨by decide, by decide, (binexp_exponent_one_eq_base 65536).1,
    (binexp_exponent_one_eq_base 65536).2 (by decide)⟩

/-- C10: the six concrete scenarios: `binexp 2 10 = 1024`, `binexp 3 5 = 243`,
`binexp 5 0 = 1`, `binexp 7 1 = 7`, `binexp (-2) 3 = -8`, `binexp (-2) 4 = 16`,
each also returned by the 32-bit evaluation with no product out of range. -/
theorem binexp_concrete_scenarios :
    (binexp 2 10 = 1024 ∧ binexp 3 5 = 243 ∧ binexp 5 0 = 1 ∧
      binexp 7 1 = 7 ∧ binexp (-2) 3 = -8 ∧ binexp (-2) 4 = 16) ∧
    (binexpChecked 2 10 = some 1024 ∧ binexpChecked 3 5 = some 243 ∧
      binexpChecked 5 0 = some 1 ∧ binexpChecked 7 1 = some 7 ∧
      binexpChecked (-2) 3 = some (-8) ∧ binexpChecked (-2) 4 = some 16) := by
  refine ⟨⟨?_, ?_, ?_, ?_, ?_, ?_⟩, ⟨?_, ?_, ?_, ?_, ?_, ?_⟩⟩
  · simp (disch := decide) [binexp_even, binexp_odd, binexp_zero, Int.tdiv_eq_ediv]
  · simp (disch := decide) [binexp_even, binexp_odd, binexp_zero, Int.tdiv_eq_ediv]
  · simp (disch := decide) [binexp_even, binexp_odd, binexp_zero, Int.tdiv_eq_ediv]
  · simp (disch := decide) [binexp_even, binexp_odd, binexp_zero, Int.tdiv_eq_ediv]
  · simp (disch := decide) [binexp_even, binexp_odd, binexp_zero, Int.tdiv_eq_ediv]
  · simp (disch := decide) [binexp_even, binexp_odd, binexp_zero, Int.tdiv_eq_ediv]
  · simp (disch := decide) [binexpChecked_even, binexpChecked_odd, binexpChecked_zero,
      mulChecked, inRange, INT_MIN, INT_MAX, Int.tdiv_eq_ediv]
  · simp (disch := decide) [binexpChecked_even, binexpChecked_odd, binexpChecked_zero,
      mulChecked, inRange, INT_MIN, INT_MAX, Int.tdiv_eq_ediv]
  · simp (disch := decide) [binexpChecked_even, binexpChecked_odd, binexpChecked_zero,
      mulChecked, inRange, INT_MIN, INT_MAX, Int.tdiv_eq_ediv]
  · simp (disch := decide) [binexpChecked_even, binexpChecked_odd, binexpChecked_zero,
      mulChecked, inRange, INT_MIN, INT_MAX, Int.tdiv_eq_ediv]
  · simp (disch := decide) [binexpChecked_even, binexpChecked_odd, binexpChecked_zero,
      mulChecked, inRange, INT_MIN, INT_MAX, Int.tdiv_eq_ediv]
  · simp (disch := decide) [binexpChecked_even, binexpChecked_odd, binexpChecked_zero,
      mulChecked, inRange, INT_MIN, INT_MAX, Int.tdiv_eq_ediv]

/-- C11: `binexp` satisfies the recursive definition of the specification: for
every `a` and every `b > 0`, `binexp a b` is `binexp (a * a) (b / 2)` when `b`
is even and `a * binexp (a * a) (b / 2)` when `b` is odd, where `b / 2`
truncates toward zero (`2 * (b / 2) <= b < 2 * (b / 2) + 2` for positive `b`).
The equations hold for the program on 32-bit integers, where each product is
the wrapping `int` product (`binexp32`) or, in the overflow-checked reading, a
product that must be in range (`binexpChecked`), and over unbounded integers
(`binexp`). -/
theorem binexp_recursive_definition (a b : Int) (hb : 0 < b) :
    binexp a b =
        (if Even b then binexp (a * a) (b.tdiv 2) else a * binexp (a * a) (b.tdiv 2)) ∧
      2 * b.tdiv 2 ≤ b ∧ b < 2 * b.tdiv 2 + 2 ∧
      binexp32 a b =
        (if Even b then binexp32 (wrap32 (a * a)) (b.tdiv 2)
          else wrap32 (a * binexp32 (wrap32 (a * a)) (b.tdiv 2))) ∧
      binexpChecked a b =
        (if Even b then (mulChecked a a).bind (fun s => binexpChecked s (b.tdiv 2))
          else (mulChecked a a).bind (fun s =>
            (binexpChecked s (b.tdiv 2)).bind (fun r => mulChecked a r))) := by
  have h0 : b ≠ 0 := by omega
  have hq : b.tdiv 2 = b / 2 := Int.tdiv_eq_ediv (by omega) (by decide)
  refine ⟨?_, by omega, by omega, ?_, ?_⟩
  · by_cases h2 : b.tmod 2 = 0
    · rw [if_pos ((even_iff_tmod_two b).mpr h2)]
      exact binexp_even a h0 h2
    · rw [if_neg (fun h => h2 ((even_iff_tmod_two b).mp h))]
      exact binexp_odd a h0 h2
  · by_cases h2 : b.tmod 2 = 0
    · rw [if_pos ((even_iff_tmod_two b).mpr h2)]
      exact binexp32_even a h0 h2
    · rw [if_neg (fun h => h2 ((even_iff_tmod_two b).mp h))]
      exact binexp32_odd a h0 h2
  · by_cases h2 : b.tmod 2 = 0
    · rw [if_pos ((even_iff_tmod_two b).mpr h2)]
      exact binexpChecked_even a h0 h2
    · rw [if_neg (fun h => h2 ((even_iff_tmod_two b).mp h))]
      exact binexpChecked_odd a h0 h2

theorem binexp_recursive_definition_witness :
    (0 : Int) < 2 ∧
      binexp 46341 2 =
        (if Even (2 : Int) then binexp (46341 * 46341) ((2 : Int).tdiv 2)
          else 46341 * binexp (46341 * 46341) ((2 : Int).tdiv 2)) ∧
      2 * (2 : Int).tdiv 2 ≤ 2 ∧ (2 : Int) < 2 * (2 : Int).tdiv 2 + 2 ∧
      binexp32 46341 2 =
        (if Even (2 : Int) then binexp32 (wrap32 (46341 * 46341)) ((2 : Int).tdiv 2)
          else wrap32 (46341 * binexp32 (wrap32 (46341 * 46341)) ((2 : Int).tdiv 2))) ∧
      binexpChecked 46341 2 =
        (if Even (2 : Int) then
            (mulChecked 46341 46341).bind (fun s => binexpChecked s ((2 : Int).tdiv 2))
          else (mulChecked 46341 46341).bind (fun s =>
            (binexpChecked s ((2 : Int).tdiv 2)).bind (fun r => mulChecked 46341 r))) :=
  ⟨by decide, binexp_recursive_definition 46341 2 (by decide)⟩

/-- C13: for every `a` and every `b >= 0`, the iterative square-and-multiply
loop of the specification, started with `result = 1`, returns the same value as
the recursive `binexp a b`: on 32-bit integers, where the loop and the
recursion both wrap every product (`powerIterative32` and `binexp32`), and over
unbounded integers (`powerIterative` and `binexp`). -/
theorem powerIterative_eq_binexp (a b : Int) (_hb : 0 ≤ b) :
    powerIterative a b = binexp a b ∧ powerIterative32 a b = binexp32 a b := by
  constructor
  · unfold powerIterative
    rw [powerLoop_eq, one_mul]
  · unfold powerIterative32
    rw [powerLoop32_eq 1 a b (by decide), one_mul, binexp32_eq_wrap_pow]

theorem powerIterative_eq_binexp_witness :
    (0 : Int) ≤ 2 ∧ powerIterative 46341 2 = binexp 46341 2 ∧
      powerIterative32 46341 2 = binexp32 46341 2 :=
  ⟨by decide, powerIterative_eq_binexp 46341 2 (by decide)⟩

/-- C15: with the C++ quotient and remainder, `binexp` also terminates for every
negative exponent and returns `a ^ |b|` over unbounded integers: for `b < 0`,
`binexp a b = a ^ (-b)`, reached within `|b| + 1` nested calls, and in
particular `binexp a (-1) = a`. -/
theorem binexp_negative_exponent_pow (a b : Int) (hb : b < 0) :
    binexp a b = a ^ (-b).toNat ∧
      binexpFuel (b.natAbs + 1) a b = some (a ^ (-b).toNat) ∧
      binexp a (-1) = a := by
  have hnat : b.natAbs = (-b).toNat := by omega
  have hpow : binexp a b = a ^ (-b).toNat := by rw [binexp_eq_pow_natAbs, hnat]
  refine ⟨hpow, ?_, ?_⟩
  · rw [binexpFuel_of_lt (b.natAbs + 1) a b (by omega), hpow]
  · rw [binexp_eq_pow_natAbs]
    simp

theorem binexp_negative_exponent_pow_witness :
    (-3 : Int) < 0 ∧ binexp 2 (-3) = 2 ^ (-(-3 : Int)).toNat ∧
      binexpFuel ((-3 : Int).natAbs + 1) 2 (-3) = some (2 ^ (-(-3 : Int)).toNat) ∧
      binexp 2 (-1) = 2 :=
  ⟨by decide, binexp_negative_exponent_pow 2 (-3) (by decide)⟩

/-- C17 (as stated, refuted): the claim covers every `a` and every non-zero
`b`, hence `a = INT_MIN`, `b = -1`; there the quotient `2147483648` is not an
`int` and `a % b` has no value, so `add` does not return the remainder `0`. -/
theorem add_int_min_neg_one_undefined :
    inRange INT_MIN ∧ inRange (-1) ∧ (-1 : Int) ≠ 0 ∧
      INT_MIN.tmod (-1) = 0 ∧ ¬ inRange (INT_MIN.tdiv (-1)) ∧
      add INT_MIN (-1) = none ∧ add INT_MIN (-1) ≠ some (INT_MIN.tmod (-1)) := by
  decide

/-- C17 (amended): the function named `add` is a modulo operation: for all
32-bit `a` and non-zero 32-bit `b` other than the pair `a = INT_MIN`, `b = -1`,
`add a b` returns the remainder of the division truncating toward zero
(`a = b * q + add a b` with `q` the truncated quotient, smaller than `b` in
absolute value and never of the sign opposite to `a`), so the value `main`
returns, `add 10 20`, is `10`, not the sum `30`. -/
theorem add_is_truncating_remainder (a b : Int) (ha : inRange a) (hb : inRange b)
    (hb0 : b ≠ 0) (hne : ¬ (a = INT_MIN ∧ b = -1)) :
    add a b = some (a - b * a.tdiv b) ∧ (a - b * a.tdiv b).natAbs < b.natAbs ∧
      0 ≤ a * (a - b * a.tdiv b) ∧ inRange (a - b * a.tdiv b) ∧
      main.2 = some 10 ∧ main.2 ≠ some (10 + 20) := by
  have hq : inRange (a.tdiv b) := inRange_tdiv ha hb hb0 hne
  have hdef : a - b * a.tdiv b = a.tmod b := (Int.tmod_def a b).symm
  have hlt : (a.tmod b).natAbs < b.natAbs := by
    rw [natAbs_tmod_eq]
    exact Nat.mod_lt _ (Int.natAbs_pos.mpr hb0)
  rw [hdef]
  refine ⟨?_, hlt, mul_tmod_nonneg a b, ?_, by decide, by decide⟩
  · unfold add
    simp [hb0, hq]
  · unfold inRange INT_MIN INT_MAX at hb ⊢
    omega

theorem add_is_truncating_remainder_witness :
    inRange (-7) ∧ inRange 2 ∧ (2 : Int) ≠ 0 ∧ ¬ ((-7 : Int) = INT_MIN ∧ (2 : Int) = -1) ∧
      add (-7) 2 = some (-7 - 2 * (-7 : Int).tdiv 2) ∧
      ((-7 : Int) - 2 * (-7 : Int).tdiv 2).natAbs < (2 : Int).natAbs ∧
      0 ≤ (-7 : Int) * (-7 - 2 * (-7 : Int).tdiv 2) ∧
      inRange (-7 - 2 * (-7 : Int).tdiv 2) ∧
      main.2 = some 10 ∧ main.2 ≠ some (10 + 20) :=
  ⟨by decide, by decide, by decide, by decide,
    add_is_truncating_remainder (-7) 2 (by decide) (by decide) (by decide) (by decide)⟩

/-- C12: the recursion depth of `binexp` is logarithmic in the exponent: for
every `a` and every `b >= 1` the evaluation of `binexp a b` makes exactly
`floor (log2 b) + 1` recursive calls (so a depth bound of that many nested calls
is not enough and one more is), `binexp a 0` makes none, and the number of
multiplications is at most `2 * (floor (log2 b) + 1)`. -/
theorem binexp_call_count_logarithmic (a b : Int) (hb : 1 ≤ b) :
    (binexpCounted a b).1 = binexp a b ∧
      (binexpCounted a b).2.1 = Nat.log 2 b.toNat + 1 ∧
      (binexpCounted a 0).2.1 = 0 ∧
      (binexpCounted a b).2.2 ≤ 2 * (Nat.log 2 b.toNat + 1) ∧
      binexpFuel (Nat.log 2 b.toNat + 1) a b = none ∧
      binexpFuel (Nat.log 2 b.toNat + 2) a b = some (binexp a b) := by
  have h0 : b ≠ 0 := by omega
  have hnat : b.natAbs = b.toNat := by omega
  obtain ⟨hv, hc, hm⟩ := binexpCounted_spec a b
  rw [if_neg h0, hnat] at hc
  refine ⟨hv, hc, ?_, ?_, ?_, ?_⟩
  · rw [binexpCounted_zero]
  · rw [← hc]
    exact hm
  · exact binexpFuel_none_of_le _ a b (by omega)
  · exact binexpFuel_of_calls_lt _ a b (by omega)

theorem binexp_call_count_logarithmic_witness :
    (1 : Int) ≤ 5 ∧
      (binexpCounted 3 5).1 = binexp 3 5 ∧
      (binexpCounted 3 5).2.1 = Nat.log 2 (5 : Int).toNat + 1 ∧
      (binexpCounted 3 0).2.1 = 0 ∧
      (binexpCounted 3 5).2.2 ≤ 2 * (Nat.log 2 (5 : Int).toNat + 1) ∧
      binexpFuel (Nat.log 2 (5 : Int).toNat + 1) 3 5 = none ∧
      binexpFuel (Nat.log 2 (5 : Int).toNat + 2) 3 5 = some (binexp 3 5) :=
  ⟨by decide, binexp_call_count_logarithmic 3 5 (by decide)⟩

/-- C14: with every multiplication wrapping around in 32-bit two's complement,
for every 32-bit `a` and every `b >= 0`, `binexp32 a b` is congruent to `a ^ b`
modulo `2^32` and lies in the signed 32-bit range; hence it equals `a ^ b`
exactly whenever `a ^ b` fits in a 32-bit signed integer, even if intermediate
products wrapped. -/
theorem binexp32_congruent_pow (a b : Int) (_ha : inRange a) (hb : 0 ≤ b) :
    Int.ModEq 4294967296 (binexp32 a b) (a ^ b.toNat) ∧
      inRange (binexp32 a b) ∧
      (inRange (a ^ b.toNat) → binexp32 a b = a ^ b.toNat) := by
  have hnat : b.natAbs = b.toNat := by omega
  have hw : binexp32 a b = wrap32 (a ^ b.toNat) := by
    rw [binexp32_eq_wrap_pow, hnat]
  refine ⟨?_, ?_, fun hfit => ?_⟩
  · rw [hw]
    exact wrap32_modEq _
  · rw [hw]
    exact inRange_wrap32 _
  · rw [hw, wrap32_of_inRange hfit]

theorem binexp32_congruent_pow_witness :
    inRange 2 ∧ (0 : Int) ≤ 16 ∧ inRange (2 ^ (16 : Int).toNat) ∧
      Int.ModEq 4294967296 (binexp32 2 16) (2 ^ (16 : Int).toNat) ∧
      inRange (binexp32 2 16) ∧
      binexp32 2 16 = 2 ^ (16 : Int).toNat :=
  have h := binexp32_congruent_pow 2 16 (by decide) (by decide)
  have hfit : inRange (2 ^ (16 : Int).toNat) := by decide
  ⟨by decide, by decide, hfit, h.1, h.2.1, h.2.2 hfit⟩

/-- C16: `binexp` squares the base once more than the result needs, so an
intermediate product can overflow although the final result fits: for
`a = 2, b = 16` and for `a = 65536, b = 1` the power `a ^ b` lies in the 32-bit
signed range, yet the evaluation computes the square `65536 * 65536 = 2^32`,
which does not.  In general, for `b > 0` the last square computed is
`a ^ (2 ^ (floor (log2 b) + 1))`, whose exponent exceeds `b`, and when it does
not fit the 32-bit evaluation overflows. -/
theorem binexp_square_beyond_result :
    (inRange (2 ^ 16) ∧ binexp 2 16 = 2 ^ 16 ∧
        binexpSquares 2 16 = [4, 16, 256, 65536, 65536 * 65536] ∧
        ¬ inRange (65536 * 65536) ∧ binexpChecked 2 16 = none) ∧
      (inRange (65536 ^ 1) ∧ binexp 65536 1 = 65536 ^ 1 ∧
        binexpSquares 65536 1 = [65536 * 65536] ∧ binexpChecked 65536 1 = none) ∧
      ∀ a b : Int, 0 < b →
        a ^ (2 ^ (Nat.log 2 b.toNat + 1)) ∈ binexpSquares a b ∧
        b.toNat < 2 ^ (Nat.log 2 b.toNat + 1) ∧
        (¬ inRange (a ^ (2 ^ (Nat.log 2 b.toNat + 1))) → binexpChecked a b = none) := by
  refine ⟨⟨by decide, ?_, ?_, by decide, ?_⟩, ⟨by decide, ?_, ?_, ?_⟩, ?_⟩
  · rw [binexp_eq_pow_natAbs]
    rfl
  · simp (disch := decide) [binexpSquares_step, binexpSquares_zero, Int.tdiv_eq_ediv]
  · simp (disch := decide) [binexpChecked_even, binexpChecked_odd, binexpChecked_zero,
      mulChecked, inRange, INT_MIN, INT_MAX, Int.tdiv_eq_ediv]
  · rw [binexp_eq_pow_natAbs]
    rfl
  · simp (disch := decide) [binexpSquares_step, binexpSquares_zero, Int.tdiv_eq_ediv]
  · simp (disch := decide) [binexpChecked_even, binexpChecked_odd, binexpChecked_zero,
      mulChecked, inRange, INT_MIN, INT_MAX, Int.tdiv_eq_ediv]
  · intro a b hb
    have h0 : b ≠ 0 := by omega
    have hnat : b.natAbs = b.toNat := by omega
    have hlast := binexpSquares_last a h0
    rw [hnat] at hlast
    refine ⟨hlast, Nat.lt_pow_succ_log_self (by decide) _, fun hout => ?_⟩
    cases hc : binexpChecked a b with
    | none => rfl
    | some r => exact absurd (binexpChecked_squares hc _ hlast) hout

theorem binexp_square_beyond_result_witness :
    (0 : Int) < 16 ∧ ¬ inRange ((2 : Int) ^ (2 ^ (Nat.log 2 (16 : Int).toNat + 1))) ∧
      (2 : Int) ^ (2 ^ (Nat.log 2 (16 : Int).toNat + 1)) ∈ binexpSquares 2 16 ∧
      (16 : Int).toNat < 2 ^ (Nat.log 2 (16 : Int).toNat + 1) ∧
      binexpChecked 2 16 = none :=
  have h := binexp_square_beyond_result.2.2 2 16 (by decide)
  have hlog : Nat.log 2 (16 : Int).toNat = 4 :=
    Nat.log_eq_of_pow_le_of_lt_pow (by decide) (by decide)
  have hout : ¬ inRange ((2 : Int) ^ (2 ^ (Nat.log 2 (16 : Int).toNat + 1))) := by
    rw [hlog]
    decide
  ⟨by decide, hout, h.1, h.2.1, h.2.2 hout⟩

end LocalBolt
